import Mathlib

/-!
Verification of the block-aware text-selection core (Okular layout-block
selection helpers).  Geometry is modelled over `ℚ` (the source uses `double`
on normalized page coordinates in `[0,1]`); block lists are Lean lists in
registry iteration order; "pointer to block or null" results become
`Option LayoutBlock`.
-/

namespace BlockSel

/-- A point in normalized page coordinates (`NormalizedPoint`). -/
structure NPoint where
  x : ℚ
  y : ℚ
deriving DecidableEq, Repr

/-- An axis-aligned rectangle in normalized page coordinates
(`NormalizedRect`, constructor argument order left, top, right, bottom). -/
structure NRect where
  left : ℚ
  top : ℚ
  right : ℚ
  bottom : ℚ
deriving DecidableEq, Repr

/-- `NormalizedRect::contains(x, y)`: boundary-inclusive containment,
as pinned by the repository's `testLayoutBlockContainsPoint` /
`testLayoutBlockContainsPointEdgeCases` tests. -/
def NRect.containsPoint (r : NRect) (px py : ℚ) : Bool :=
  decide (r.left ≤ px) && decide (px ≤ r.right) &&
  decide (r.top ≤ py) && decide (py ≤ r.bottom)

/-- Center (centroid) of a rectangle, `(left+right)/2, (top+bottom)/2`. -/
def NRect.centerX (r : NRect) : ℚ := (r.left + r.right) / 2

/-- Vertical coordinate of a rectangle's center. -/
def NRect.centerY (r : NRect) : ℚ := (r.top + r.bottom) / 2

/-- Closed-rectangle intersection test used by the area-intersection
matching mode (external `NormalizedRect::intersects`). -/
def NRect.intersectsR (r q : NRect) : Bool :=
  decide (r.left ≤ q.right) && decide (q.left ≤ r.right) &&
  decide (r.top ≤ q.bottom) && decide (q.top ≤ r.bottom)

/-- A layout block (`Okular::LayoutBlock`): id, page, bounding box,
classification tag, reading order (−1 = out of flow), confidence. -/
structure LayoutBlock where
  id : String
  page : Int
  bbox : NRect
  blockType : String
  readingOrder : Int
  confidence : ℚ
deriving DecidableEq, Repr

/-- `LayoutBlock::contains(NormalizedPoint)`: boundary-inclusive bbox
containment (pinned by the in-repo block tests). -/
def LayoutBlock.containsP (b : LayoutBlock) (p : NPoint) : Bool :=
  b.bbox.containsPoint p.x p.y

/-- `LayoutBlock::contains(NormalizedRect)`: centroid containment — the
rectangle's center point is tested against the block's bbox (pinned by
`testLayoutBlockContainsRect` / `testLayoutBlockContainsRectSpanningBoundary`). -/
def LayoutBlock.containsR (b : LayoutBlock) (r : NRect) : Bool :=
  b.bbox.containsPoint r.centerX r.centerY

/-- A text fragment (`Okular::TextEntity`): text plus normalized area. -/
structure TextEntity where
  text : String
  area : NRect
deriving DecidableEq, Repr

/-- `BlockSelectionHelper::findBlockContaining`: first block in iteration
order containing the point, or none. -/
def findBlockContaining (blocks : List LayoutBlock) (p : NPoint) :
    Option LayoutBlock :=
  blocks.find? (fun b => b.containsP p)

/-- `BlockSelectionHelper::getNextBlock`: the first block whose
`readingOrder` equals `current.readingOrder + 1`, or none. -/
def getNextBlock (blocks : List LayoutBlock) (current : LayoutBlock) :
    Option LayoutBlock :=
  blocks.find? (fun b => b.readingOrder == current.readingOrder + 1)

/-- The "passed" predicate of `findBlockForCursor`: the cursor is below the
block's bottom edge, or on the block's vertical level and to its right. -/
def passedB (b : LayoutBlock) (p : NPoint) : Bool :=
  decide (b.bbox.bottom < p.y) ||
  (decide (b.bbox.top ≤ p.y) && decide (p.y ≤ b.bbox.bottom) &&
   decide (b.bbox.right < p.x))

/-- The first loop of `findBlockForCursor`: running maximum of
`readingOrder` over passed blocks, strict-greater comparison, accumulator
seeded with order −1 and no block. -/
def bestPassedAux (p : NPoint) :
    List LayoutBlock → Int → Option LayoutBlock → Option LayoutBlock
  | [], _, best => best
  | b :: rest, bestOrder, best =>
      if passedB b p && decide (bestOrder < b.readingOrder) then
        bestPassedAux p rest b.readingOrder (some b)
      else
        bestPassedAux p rest bestOrder best

/-- `INT_MAX` from `<climits>`, the seed of the minimum-order scan. -/
def INT_MAX : Int := 2147483647

/-- The final loop of `findBlockForCursor`: first block attaining the
minimum non-negative reading order, minimum seeded with `INT_MAX`. -/
def firstMinNonNegAux :
    List LayoutBlock → Int → Option LayoutBlock → Option LayoutBlock
  | [], _, first => first
  | b :: rest, minOrder, first =>
      if decide (0 ≤ b.readingOrder) && decide (b.readingOrder < minOrder) then
        firstMinNonNegAux rest b.readingOrder (some b)
      else
        firstMinNonNegAux rest minOrder first

/-- `BlockSelectionHelper::findBlockForCursor`: direct containment first;
otherwise the successor of the highest-order passed block (or that block
itself when it has no successor); otherwise the block with the smallest
non-negative reading order; none on an empty registry. -/
def findBlockForCursor (blocks : List LayoutBlock) (p : NPoint) :
    Option LayoutBlock :=
  match findBlockContaining blocks p with
  | some b => some b
  | none =>
    match bestPassedAux p blocks (-1) none with
    | some best =>
        match getNextBlock blocks best with
        | some nxt => some nxt
        | none => some best
    | none =>
        if blocks.isEmpty then none
        else firstMinNonNegAux blocks INT_MAX none

/-- `BlockSelectionHelper::getBlocksInReadingOrderRange`: blocks whose
reading order lies in `[minOrder, maxOrder]`, in iteration order. -/
def getBlocksInReadingOrderRange (blocks : List LayoutBlock)
    (minOrder maxOrder : Int) : List LayoutBlock :=
  blocks.filter (fun b =>
    decide (minOrder ≤ b.readingOrder) && decide (b.readingOrder ≤ maxOrder))

/-- `BlockSelectionHelper::isEntityInAnyBlock`: empty filter list accepts
everything; otherwise the entity area's center must lie in some block. -/
def isEntityInAnyBlock (entityArea : NRect) (blocks : List LayoutBlock) :
    Bool :=
  if blocks.isEmpty then true
  else blocks.any (fun b =>
    b.bbox.containsPoint ((entityArea.left + entityArea.right) / 2)
      ((entityArea.top + entityArea.bottom) / 2))

/-- The fixed line tolerance `0.01` of the assembler's comparator and of
the selection's line-precision discipline. -/
def lineTol : ℚ := 1 / 100

/-- The comparator of `extractTextInReadingOrder`'s per-group sort:
vertical centers first, horizontal left as tie-break when the vertical
distance is within the `0.01` tolerance. -/
def entLt (a b : TextEntity) : Bool :=
  if |a.area.centerY - b.area.centerY| > lineTol then
    decide (a.area.centerY < b.area.centerY)
  else
    decide (a.area.left < b.area.left)

/-- Insertion step of the per-group sort (a deterministic realisation of
the source's `std::sort` on the same comparator). -/
def insertSortedEnt (w : TextEntity) : List TextEntity → List TextEntity
  | [] => [w]
  | x :: xs => if entLt w x then w :: x :: xs else x :: insertSortedEnt w xs

/-- Sort a group of entities by `entLt`. -/
def sortEnts (l : List TextEntity) : List TextEntity :=
  l.foldr insertSortedEnt []

/-- Insert a key into an ascending duplicate-free key list (`QMap` keys
are iterated in ascending order, one slot per key). -/
def insertKey (k : Int) : List Int → List Int
  | [] => [k]
  | x :: xs =>
      if k < x then k :: x :: xs
      else if k = x then x :: xs
      else x :: insertKey k xs

/-- Ascending duplicate-free list of the group keys occurring in `ks`. -/
def sortedKeys (ks : List Int) : List Int :=
  ks.foldr insertKey []

/-- A selection area (`RegularAreaRect`): a list of normalized rects. -/
def AreaRects := List NRect

/-- The inclusion test of `extractTextInReadingOrder`: boundary
intersection when `useIntersects`, otherwise center containment. -/
def matchesArea (area : List NRect) (useIntersects : Bool)
    (w : TextEntity) : Bool :=
  if useIntersects then area.any (fun q => q.intersectsR w.area)
  else area.any (fun q => q.containsPoint w.area.centerX w.area.centerY)

/-- The grouping key of `extractTextInReadingOrder`: the reading order of
the first block (registry order) centrally containing the entity when that
order is non-negative, else the sentinel `999999`. -/
def groupKey (blocks : List LayoutBlock) (a : NRect) : Int :=
  match blocks.find? (fun b => b.containsR a) with
  | some b => if 0 ≤ b.readingOrder then b.readingOrder else 999999
  | none => 999999

/-- Text of one group of `extractTextInReadingOrder`: the matched entities
with the given key, sorted by the comparator, texts concatenated. -/
def groupText (blocks : List LayoutBlock) (matched : List TextEntity)
    (k : Int) : String :=
  String.join ((sortEnts (matched.filter
    (fun w => groupKey blocks w.area == k))).map (fun w => w.text))

/-- `BlockSelectionHelper::extractTextInReadingOrder`: filter entities by
the selection area, group them by owning-block reading order (sentinel
`999999` for entities in no block), sort each group by the Y-then-X
comparator and concatenate the groups by ascending key. -/
def extractTextInReadingOrder (words : List TextEntity)
    (blocks : List LayoutBlock) (area : List NRect) (useIntersects : Bool) :
    String :=
  let matched := words.filter (matchesArea area useIntersects)
  let keys := sortedKeys (matched.map (fun w => groupKey blocks w.area))
  String.join (keys.map (fun k => groupText blocks matched k))

/-- Modelled from the spec: `TextPagePrivate::getPreviousBlock` (declared
in the in-repo private header, defined in a source file absent from src/):
"the block whose `readingOrder == b.readingOrder - 1`; none if absent". -/
def getPreviousBlock (blocks : List LayoutBlock) (current : LayoutBlock) :
    Option LayoutBlock :=
  blocks.find? (fun b => b.readingOrder == current.readingOrder - 1)

/-- Modelled from the spec: the geometric "from the start cursor onward"
test of the Selection Resolver (`TextPage::textArea`, absent from src/),
with the line-precision discipline of spec §4.3.5 — a fragment is at or
after the cursor when its vertical center is on a strictly lower line
(more than the tolerance below), or on the cursor's line (within the
tolerance) and reaching the cursor's x or beyond. -/
def fragFromPoint (a : NRect) (p : NPoint) : Bool :=
  decide (p.y + lineTol < a.centerY) ||
  (decide (|a.centerY - p.y| ≤ lineTol) && decide (p.x ≤ a.right))

/-- Modelled from the spec: the geometric "up to the end cursor" test of
the Selection Resolver (dual of `fragFromPoint`). -/
def fragUpToPoint (a : NRect) (p : NPoint) : Bool :=
  decide (a.centerY < p.y - lineTol) ||
  (decide (|a.centerY - p.y| ≤ lineTol) && decide (a.left ≤ p.x))

/-- Modelled from the spec: the pure geometric selection between two
points (the out-of-scope fallback invoked by the Resolver). -/
def geometricSelect (words : List TextEntity) (s e : NPoint) :
    List TextEntity :=
  words.filter (fun w => fragFromPoint w.area s && fragUpToPoint w.area e)

/-- Modelled from the spec: the cross-block inclusion predicate of spec
§4.3.4 — a fragment is selected when it is centrally contained in a block
strictly between the orders, or in the `minOrder` block and at-or-after
the leading cursor, or in the `maxOrder` block and at-or-before the
trailing cursor. -/
def crossInclude (blocks : List LayoutBlock) (minO maxO : Int)
    (lead trail : NPoint) (a : NRect) : Bool :=
  (blocks.any fun b =>
    decide (minO < b.readingOrder) && decide (b.readingOrder < maxO) &&
    b.containsR a) ||
  ((blocks.any fun b => decide (b.readingOrder = minO) && b.containsR a) &&
    fragFromPoint a lead) ||
  ((blocks.any fun b => decide (b.readingOrder = maxO) && b.containsR a) &&
    fragUpToPoint a trail)

/-- Modelled from the spec: the Selection Resolver (`TextPage::textArea`,
absent from src/) — endpoints are resolved with `findBlockForCursor`;
unresolved or out-of-flow endpoints and same-order endpoints fall back to
pure geometric selection; distinct orders partition the selection into a
leading partial block, fully-included intermediate blocks, and a trailing
partial block. -/
def resolveSelection (words : List TextEntity) (blocks : List LayoutBlock)
    (s e : NPoint) : List TextEntity :=
  match findBlockForCursor blocks s, findBlockForCursor blocks e with
  | some sb, some eb =>
      if sb.readingOrder = -1 ∨ eb.readingOrder = -1 then
        geometricSelect words s e
      else if sb.readingOrder = eb.readingOrder then
        geometricSelect words s e
      else if sb.readingOrder < eb.readingOrder then
        words.filter fun w =>
          crossInclude blocks sb.readingOrder eb.readingOrder s e w.area
      else
        words.filter fun w =>
          crossInclude blocks eb.readingOrder sb.readingOrder e s w.area
  | _, _ => geometricSelect words s e

/-! ### Concrete fixtures

The six-block layout, the two-column line-precision layout and the small
block lists below instantiate the theorems; geometry is taken from the
repository's block-selection tests. -/

/-- Build a block from id, bbox corners and reading order. -/
def mkB (i : String) (l t r b : ℚ) (o : Int) : LayoutBlock :=
  ⟨i, 0, ⟨l, t, r, b⟩, "TEXT", o, 1⟩

/-- Six-block layout: full-width header. -/
def blkHeader : LayoutBlock := mkB "header" 0 0 1 (1/10) 0

/-- Six-block layout: left column, top. -/
def blkLeftTop : LayoutBlock := mkB "left_top" 0 (1/10) (45/100) (3/10) 1

/-- Six-block layout: left column, bottom. -/
def blkLeftBot : LayoutBlock := mkB "left_bot" 0 (3/10) (45/100) (5/10) 2

/-- Six-block layout: right column, top. -/
def blkRightTop : LayoutBlock := mkB "right_top" (55/100) (1/10) 1 (3/10) 3

/-- Six-block layout: right column, bottom. -/
def blkRightBot : LayoutBlock := mkB "right_bot" (55/100) (3/10) 1 (5/10) 4

/-- Six-block layout: full-width footer. -/
def blkFooter : LayoutBlock := mkB "footer" 0 (5/10) 1 (7/10) 5

/-- The six-block registry, reading orders 0..5. -/
def blocksSix : List LayoutBlock :=
  [blkHeader, blkLeftTop, blkLeftBot, blkRightTop, blkRightBot, blkFooter]

/-- One word per block of the six-block layout. -/
def entHeader : TextEntity := ⟨"Header", ⟨1/10, 2/100, 9/10, 8/100⟩⟩

/-- Word of the order-1 block. -/
def entLeftTop : TextEntity := ⟨"LeftTop", ⟨1/10, 15/100, 35/100, 25/100⟩⟩

/-- Word of the order-2 block. -/
def entLeftBot : TextEntity := ⟨"LeftBot", ⟨1/10, 35/100, 35/100, 45/100⟩⟩

/-- Word of the order-3 block. -/
def entRightTop : TextEntity := ⟨"RightTop", ⟨6/10, 15/100, 85/100, 25/100⟩⟩

/-- Word of the order-4 block. -/
def entRightBot : TextEntity := ⟨"RightBot", ⟨6/10, 35/100, 85/100, 45/100⟩⟩

/-- Word of the order-5 block. -/
def entFooter : TextEntity := ⟨"Footer", ⟨1/10, 55/100, 9/10, 65/100⟩⟩

/-- Words of the six-block layout. -/
def wordsSix : List TextEntity :=
  [entHeader, entLeftTop, entLeftBot, entRightTop, entRightBot, entFooter]

/-- Selection start inside the order-2 block. -/
def sixStart : NPoint := ⟨1/10, 35/100⟩

/-- Selection end inside the order-5 block. -/
def sixEnd : NPoint := ⟨9/10, 65/100⟩

/-- Two-column layout of the line-precision scenario: left block, order 0. -/
def blkLeft : LayoutBlock := mkB "left" 0 0 (45/100) 1 0

/-- Line-precision layout: right block, order 1. -/
def blkRight : LayoutBlock := mkB "right" (55/100) 0 1 1 1

/-- The two-column registry of the line-precision scenario. -/
def blocksLP : List LayoutBlock := [blkLeft, blkRight]

/-- First tightly spaced line of the left block, span [0.100, 0.110]. -/
def entL1 : TextEntity := ⟨"L1", ⟨1/10, 100/1000, 2/10, 110/1000⟩⟩

/-- Second tightly spaced line of the left block, span [0.119, 0.129]. -/
def entL2 : TextEntity := ⟨"L2", ⟨1/10, 119/1000, 2/10, 129/1000⟩⟩

/-- A same-line neighbour of `entL2`, to the right of it. -/
def entL2b : TextEntity := ⟨"L2b", ⟨21/100, 119/1000, 3/10, 129/1000⟩⟩

/-- The single line of the right block, span [0.150, 0.160]. -/
def entR1 : TextEntity := ⟨"R1", ⟨6/10, 150/1000, 7/10, 160/1000⟩⟩

/-- Words of the line-precision scenario. -/
def wordsLP : List TextEntity := [entL1, entL2, entR1]

/-- Line-precision selection start, y = 0.124 inside `entL2`. -/
def lpStart : NPoint := ⟨1/10, 124/1000⟩

/-- Line-precision selection end, inside `entR1`. -/
def lpEnd : NPoint := ⟨65/100, 155/1000⟩

/-- An out-of-flow block (reading order −1) below-left of the probe point. -/
def cexA : LayoutBlock := mkB "a" 0 0 (2/5) (1/5) (-1)

/-- An order-5 block near the page bottom, not passed by the probe point. -/
def cexB5 : LayoutBlock := mkB "b" 0 (19/20) 1 1 5

/-- An isolated out-of-flow block, not containing and not passed by the
probe point. -/
def cexNeg : LayoutBlock := mkB "x" (2/5) (2/5) (3/5) (3/5) (-1)

/-- A full-page block with reading order 0. -/
def cexZ : LayoutBlock := mkB "z" 0 0 1 1 0

/-- A full-page block with reading order 1. -/
def cexOne : LayoutBlock := mkB "one" 0 0 1 1 1

/-- Duplicate-order fixture: first block with reading order 0. -/
def dupA : LayoutBlock := mkB "dupA" 0 0 (1/2) (1/2) 0

/-- Duplicate-order fixture: second block with reading order 0. -/
def dupB : LayoutBlock := mkB "dupB" 0 (1/2) (1/2) 1 0

/-- Duplicate-order fixture: the block with reading order 1. -/
def dupC : LayoutBlock := mkB "dupC" (1/2) 0 1 (1/2) 1

/-- A block whose reading order 1000000 is above the assembler's sentinel. -/
def blkBig : LayoutBlock := mkB "big" (1/2) 0 1 1 1000000

/-- An entity centrally inside `blkBig`. -/
def entInBig : TextEntity := ⟨"A", ⟨6/10, 1/10, 7/10, 2/10⟩⟩

/-- An entity outside every block of the `blkBig` registry. -/
def entOutside : TextEntity := ⟨"B", ⟨1/10, 1/10, 2/10, 2/10⟩⟩

/-- A gutter entity centred at x = 0.5, inside neither column of
`blocksLP`. -/
def entGap : TextEntity := ⟨"G", ⟨45/100, 1/10, 55/100, 2/10⟩⟩

/-- The whole page as a selection area. -/
def areaFull : List NRect := [⟨0, 0, 1, 1⟩]

/-- A block used by the centroid-rule witness. -/
def wBlk : LayoutBlock := mkB "w" (1/4) (1/4) (3/4) (3/4) 0

end BlockSel

set_option maxRecDepth 10000

namespace BlockSel

/-- Characterisation of the cross-block inclusion predicate. -/
lemma crossInclude_iff (blocks : List LayoutBlock) (minO maxO : Int)
    (lead trail : NPoint) (a : NRect) :
    crossInclude blocks minO maxO lead trail a = true ↔
      ((∃ b ∈ blocks, minO < b.readingOrder ∧ b.readingOrder < maxO ∧
          b.containsR a = true) ∨
       ((∃ b ∈ blocks, b.readingOrder = minO ∧ b.containsR a = true) ∧
          fragFromPoint a lead = true) ∨
       ((∃ b ∈ blocks, b.readingOrder = maxO ∧ b.containsR a = true) ∧
          fragUpToPoint a trail = true)) := by
  simp only [crossInclude, List.any_eq_true, Bool.or_eq_true,
    Bool.and_eq_true, decide_eq_true_eq, and_assoc, or_assoc]

end BlockSel

namespace BlockSel

/-! ### Theorems -/

/-- C10: `isEntityInAnyBlock` returns `true` for every entity area whenever
the supplied block list is empty — an empty filter list means "include
everything", not "exclude everything". -/
theorem isEntityInAnyBlock_empty (r : NRect) : isEntityInAnyBlock r [] = true :=
  rfl

/-- C7: centroid rule for regions — membership of a rectangle in the block
filter tests only the rectangle's centroid, so it is invariant under
changing the rectangle's extent around a fixed centroid; on a one-block
list it holds exactly when the centroid lies in the block's bbox; and
block/rect containment itself is centroid containment. -/
theorem centroid_rule :
    (∀ (blocks : List LayoutBlock) (r q : NRect),
        r.centerX = q.centerX → r.centerY = q.centerY →
        isEntityInAnyBlock r blocks = isEntityInAnyBlock q blocks) ∧
    (∀ (b : LayoutBlock) (r : NRect),
        isEntityInAnyBlock r [b] = b.bbox.containsPoint r.centerX r.centerY) ∧
    (∀ (b : LayoutBlock) (r : NRect),
        b.containsR r = b.bbox.containsPoint r.centerX r.centerY) := by
  refine ⟨?_, ?_, ?_⟩
  · intro blocks r q hx hy
    have hx2 : (r.left + r.right) / 2 = (q.left + q.right) / 2 := hx
    have hy2 : (r.top + r.bottom) / 2 = (q.top + q.bottom) / 2 := hy
    simp only [isEntityInAnyBlock, hx2, hy2]
  · intro b r
    simp [isEntityInAnyBlock, NRect.centerX, NRect.centerY]
  · intro b r
    rfl

/-- Witness for C7 at a concrete block and two rectangles sharing a
centroid, the first one far larger than the block. -/
theorem centroid_rule_witness :
    isEntityInAnyBlock ⟨0, 0, 1, 1⟩ [wBlk] =
      isEntityInAnyBlock ⟨2/5, 2/5, 3/5, 3/5⟩ [wBlk] :=
  centroid_rule.1 [wBlk] ⟨0, 0, 1, 1⟩ ⟨2/5, 2/5, 3/5, 3/5⟩
    (by with_unfolding_all decide) (by with_unfolding_all decide)

/-- C5 counterexample: `getNextBlock` does compute a successor for an
out-of-flow block (an order −1 block's successor is the first order-0
block), and a range query with `minOrder = -1` includes out-of-flow
blocks. -/
theorem outOfFlow_cex :
    cexA.readingOrder = -1 ∧
    getNextBlock [cexA, cexZ] cexA = some cexZ ∧
    getBlocksInReadingOrderRange [cexA, cexZ] (-1) 0 = [cexA, cexZ] := by
  with_unfolding_all decide

/-- C5 amended: out-of-flow exclusion holds for in-flow queries — the
successor of a block with non-negative reading order is never out-of-flow,
and a range with non-negative `minOrder` never contains an out-of-flow
block. -/
theorem outOfFlow_excluded (blocks : List LayoutBlock)
    (current r : LayoutBlock) (minO maxO : Int) (b : LayoutBlock)
    (hc : 0 ≤ current.readingOrder)
    (hn : getNextBlock blocks current = some r)
    (hm : 0 ≤ minO)
    (hb : b ∈ getBlocksInReadingOrderRange blocks minO maxO) :
    r.readingOrder ≠ -1 ∧ b.readingOrder ≠ -1 := by
  constructor
  · unfold getNextBlock at hn
    have h1 := List.find?_some hn
    have h2 : r.readingOrder = current.readingOrder + 1 := by simpa using h1
    omega
  · unfold getBlocksInReadingOrderRange at hb
    have h1 := (List.mem_filter.mp hb).2
    simp only [Bool.and_eq_true, decide_eq_true_eq] at h1
    omega

/-- Witness for C5 (amended) on a two-block in-flow registry. -/
theorem outOfFlow_excluded_witness :
    cexOne.readingOrder ≠ -1 ∧ cexZ.readingOrder ≠ -1 :=
  outOfFlow_excluded [cexZ, cexOne] cexZ cexOne 0 1 cexZ
    (by with_unfolding_all decide) (by with_unfolding_all decide)
    (by with_unfolding_all decide) (by with_unfolding_all decide)

/-- C8 counterexample: with duplicate reading orders, the successor's
predecessor is the first block carrying the order, not the block the
successor was computed from. -/
theorem prevNext_cex :
    dupB ∈ [dupA, dupB, dupC] ∧
    getNextBlock [dupA, dupB, dupC] dupB = some dupC ∧
    getPreviousBlock [dupA, dupB, dupC] dupC = some dupA ∧
    dupA ≠ dupB := by
  with_unfolding_all decide

/-- C8 amended: successor/predecessor symmetry holds for every block that
is the first block in iteration order carrying its reading order (in
particular whenever reading orders are pairwise distinct). -/
theorem prevNext_symm (blocks : List LayoutBlock) (b n : LayoutBlock)
    (hfirst : blocks.find? (fun x => x.readingOrder == b.readingOrder) = some b)
    (hn : getNextBlock blocks b = some n) :
    getPreviousBlock blocks n = some b := by
  unfold getNextBlock at hn
  have h1 := List.find?_some hn
  have h2 : n.readingOrder = b.readingOrder + 1 := by simpa using h1
  unfold getPreviousBlock
  simp only [h2, Int.add_sub_cancel]
  exact hfirst

/-- Witness for C8 (amended) on a two-block registry with distinct
orders. -/
theorem prevNext_symm_witness :
    getPreviousBlock [cexZ, cexOne] cexOne = some cexZ :=
  prevNext_symm [cexZ, cexOne] cexZ cexOne
    (by with_unfolding_all decide) (by with_unfolding_all decide)

/-- C3 counterexample: a non-empty registry containing only an out-of-flow
block yields no block at all for a dead-space point. -/
theorem cursor_total_cex :
    findBlockForCursor [cexNeg] ⟨1/10, 1/10⟩ = none ∧
    ([cexNeg] : List LayoutBlock) ≠ [] := by
  with_unfolding_all decide

/-- Once the minimum-order scan holds a candidate it never drops it. -/
lemma firstMinNonNegAux_acc_some :
    ∀ (l : List LayoutBlock) (m : Int) (x : LayoutBlock),
      ∃ r, firstMinNonNegAux l m (some x) = some r := by
  intro l
  induction l with
  | nil => intro m x; exact ⟨x, rfl⟩
  | cons hd tl ih =>
      intro m x
      simp only [firstMinNonNegAux]
      split
      · exact ih _ _
      · exact ih _ _

/-- The minimum-order scan finds a candidate whenever some block has
reading order in `[0, m)`. -/
lemma firstMinNonNegAux_total :
    ∀ (l : List LayoutBlock) (m : Int) (acc : Option LayoutBlock),
      (∃ b ∈ l, 0 ≤ b.readingOrder ∧ b.readingOrder < m) →
      ∃ r, firstMinNonNegAux l m acc = some r := by
  intro l
  induction l with
  | nil =>
      rintro m acc ⟨b, hb, _⟩
      exact absurd hb (List.not_mem_nil b)
  | cons hd tl ih =>
      rintro m acc ⟨b, hb, h0, hm⟩
      simp only [firstMinNonNegAux]
      split
      · exact firstMinNonNegAux_acc_some tl _ hd
      · rename_i hcond
        rcases List.mem_cons.mp hb with heq | htl
        · exfalso
          apply hcond
          subst heq
          simp only [Bool.and_eq_true, decide_eq_true_eq]
          exact ⟨h0, hm⟩
        · exact ih m acc ⟨b, htl, h0, hm⟩

/-- C3 amended: `findBlockForCursor` returns a block whenever some block
has reading order in `[0, INT_MAX)`; a non-empty registry of only
out-of-flow blocks can yield none. -/
theorem cursor_total_amended (blocks : List LayoutBlock) (p : NPoint)
    (b : LayoutBlock) (hb : b ∈ blocks) (h0 : 0 ≤ b.readingOrder)
    (hmax : b.readingOrder < INT_MAX) :
    ∃ r, findBlockForCursor blocks p = some r := by
  unfold findBlockForCursor
  cases hfc : findBlockContaining blocks p with
  | some c => exact ⟨c, rfl⟩
  | none =>
      cases hbp : bestPassedAux p blocks (-1) none with
      | some best =>
          refine ⟨(getNextBlock blocks best).getD best, ?_⟩
          show (match getNextBlock blocks best with
                | some nxt => some nxt
                | none => some best) =
              some ((getNextBlock blocks best).getD best)
          cases getNextBlock blocks best with
          | some nxt => rfl
          | none => rfl
      | none =>
          have hne : blocks.isEmpty = false := by
            cases blocks with
            | nil => exact absurd hb (List.not_mem_nil b)
            | cons _ _ => rfl
          simp only [hne, Bool.false_eq_true, if_false]
          exact firstMinNonNegAux_total blocks INT_MAX none ⟨b, hb, h0, hmax⟩

/-- C2 counterexample: for a dead-space point whose only passed block is
out-of-flow, the code ignores it and falls back to the smallest
non-negative order instead of returning the passed block (which has no
successor) as the claim requires. -/
theorem cursor_deadspace_cex :
    findBlockContaining [cexA, cexB5] ⟨1/2, 9/10⟩ = none ∧
    passedB cexA ⟨1/2, 9/10⟩ = true ∧
    passedB cexB5 ⟨1/2, 9/10⟩ = false ∧
    getNextBlock [cexA, cexB5] cexA = none ∧
    findBlockForCursor [cexA, cexB5] ⟨1/2, 9/10⟩ = some cexB5 ∧
    cexB5 ≠ cexA := by
  with_unfolding_all decide

/-- The passed-block scan never updates once every remaining passed block
has order at most the accumulator's. -/
lemma bestPassedAux_stable :
    ∀ (l : List LayoutBlock) (p : NPoint) (o : Int) (acc : Option LayoutBlock),
      (∀ b ∈ l, passedB b p = true → b.readingOrder ≤ o) →
      bestPassedAux p l o acc = acc := by
  intro l
  induction l with
  | nil => intro p o acc h; rfl
  | cons hd tl ih =>
      intro p o acc h
      simp only [bestPassedAux]
      split
      · rename_i hcond
        exfalso
        simp only [Bool.and_eq_true, decide_eq_true_eq] at hcond
        have hle := h hd (List.mem_cons_self hd tl) hcond.1
        omega
      · exact ih p o acc (fun b hb => h b (List.mem_cons_of_mem hd hb))

/-- Running the passed-block scan across a prefix of strictly smaller
passed orders and onto the maximal passed block yields that block. -/
lemma bestPassedAux_through :
    ∀ (l₁ : List LayoutBlock) (best : LayoutBlock) (l₂ : List LayoutBlock)
      (p : NPoint) (o : Int) (acc : Option LayoutBlock),
      o < best.readingOrder →
      passedB best p = true →
      (∀ b ∈ l₁, passedB b p = true → b.readingOrder < best.readingOrder) →
      (∀ b ∈ l₂, passedB b p = true → b.readingOrder ≤ best.readingOrder) →
      bestPassedAux p (l₁ ++ best :: l₂) o acc = some best := by
  intro l₁
  induction l₁ with
  | nil =>
      intro best l₂ p o acc ho hpass h1 h2
      simp only [List.nil_append, bestPassedAux]
      rw [if_pos]
      · exact bestPassedAux_stable l₂ p best.readingOrder (some best) h2
      · simp only [Bool.and_eq_true, decide_eq_true_eq]
        exact ⟨hpass, ho⟩
  | cons hd tl ih =>
      intro best l₂ p o acc ho hpass h1 h2
      simp only [List.cons_append, bestPassedAux]
      split
      · rename_i hcond
        simp only [Bool.and_eq_true, decide_eq_true_eq] at hcond
        exact ih best l₂ p hd.readingOrder (some hd)
          (h1 hd (List.mem_cons_self hd tl) hcond.1) hpass
          (fun b hb hp => h1 b (List.mem_cons_of_mem hd hb) hp) h2
      · exact ih best l₂ p o acc ho hpass
          (fun b hb hp => h1 b (List.mem_cons_of_mem hd hb) hp) h2

/-- C2 amended: dead-space cursor resolution — a block is passed exactly
when the point is below its bottom edge or on its vertical band strictly
to its right; among passed blocks with non-negative reading order the
first one attaining the greatest order is kept (passed out-of-flow blocks
are ignored and fall through to the smallest-order rule), and the cursor
resolves to that block's successor, or to the block itself when no
successor exists. -/
theorem cursor_deadspace (blocks l₁ l₂ : List LayoutBlock)
    (best : LayoutBlock) (p : NPoint)
    (hnc : findBlockContaining blocks p = none)
    (hsplit : blocks = l₁ ++ best :: l₂)
    (hpass : passedB best p = true)
    (hnn : 0 ≤ best.readingOrder)
    (hmax : ∀ b ∈ blocks, passedB b p = true →
      b.readingOrder ≤ best.readingOrder)
    (hfirst : ∀ b ∈ l₁, passedB b p = true →
      b.readingOrder < best.readingOrder) :
    (∀ b : LayoutBlock, passedB b p = true ↔
        (b.bbox.bottom < p.y ∨
          (b.bbox.top ≤ p.y ∧ p.y ≤ b.bbox.bottom ∧ b.bbox.right < p.x))) ∧
    findBlockForCursor blocks p =
      some ((getNextBlock blocks best).getD best) := by
  constructor
  · intro b
    simp [passedB, and_assoc]
  · have hbp : bestPassedAux p blocks (-1) none = some best := by
      subst hsplit
      exact bestPassedAux_through l₁ best l₂ p (-1) none (by omega) hpass
        hfirst
        (fun b hb hp =>
          hmax b (List.mem_append_right l₁ (List.mem_cons_of_mem best hb)) hp)
    unfold findBlockForCursor
    rw [hnc, hbp]
    show (match getNextBlock blocks best with
          | some nxt => some nxt
          | none => some best) =
        some ((getNextBlock blocks best).getD best)
    cases getNextBlock blocks best with
    | some nxt => rfl
    | none => rfl

/-- Witness for C2 (amended): a gutter point of the six-block layout whose
maximal passed block is the order-3 block; the cursor resolves to that
block's successor. -/
theorem cursor_deadspace_witness :
    findBlockForCursor blocksSix ⟨1/2, 7/20⟩ =
      some ((getNextBlock blocksSix blkRightTop).getD blkRightTop) :=
  (cursor_deadspace blocksSix [blkHeader, blkLeftTop, blkLeftBot]
    [blkRightBot, blkFooter] blkRightTop ⟨1/2, 7/20⟩
    (by with_unfolding_all decide) (by with_unfolding_all decide)
    (by with_unfolding_all decide) (by with_unfolding_all decide)
    (by with_unfolding_all decide) (by with_unfolding_all decide)).2

/-- Witness for C3 (amended) on a one-block registry. -/
theorem cursor_total_witness :
    ∃ r, findBlockForCursor [cexZ] ⟨1/2, 1/2⟩ = some r :=
  cursor_total_amended [cexZ] ⟨1/2, 1/2⟩ cexZ (by with_unfolding_all decide)
    (by with_unfolding_all decide) (by with_unfolding_all decide)

/-- C1: cross-block completeness (over the spec-modelled Resolver): when
the endpoints resolve to blocks of distinct non-negative orders with
`sb.readingOrder < eb.readingOrder`, every fragment centrally contained in
a strictly-between block is selected; every selected fragment lies in some
block of the inclusive order range; a fragment contained only in
`minOrder`-order blocks is selected exactly when it is at or after the
start cursor; a fragment contained only in `maxOrder`-order blocks exactly
when it is at or before the end cursor; and in the six-block layout a
selection from inside the order-2 block to inside the order-5 block
selects precisely the fragments of blocks 2, 3, 4, 5 and none of blocks
0, 1. -/
theorem crossBlock_completeness (words : List TextEntity)
    (blocks : List LayoutBlock) (s e : NPoint) (sb eb : LayoutBlock)
    (hs : findBlockForCursor blocks s = some sb)
    (he : findBlockForCursor blocks e = some eb)
    (h0s : 0 ≤ sb.readingOrder) (h0e : 0 ≤ eb.readingOrder)
    (hlt : sb.readingOrder < eb.readingOrder) :
    (∀ w ∈ words,
        (∃ b ∈ blocks, sb.readingOrder < b.readingOrder ∧
          b.readingOrder < eb.readingOrder ∧ b.containsR w.area = true) →
        w ∈ resolveSelection words blocks s e) ∧
    (∀ w ∈ resolveSelection words blocks s e,
        ∃ b ∈ blocks, sb.readingOrder ≤ b.readingOrder ∧
          b.readingOrder ≤ eb.readingOrder ∧ b.containsR w.area = true) ∧
    (∀ w ∈ words,
        (∀ b ∈ blocks, b.containsR w.area = true →
          b.readingOrder = sb.readingOrder) →
        (w ∈ resolveSelection words blocks s e ↔
          ((∃ b ∈ blocks, b.readingOrder = sb.readingOrder ∧
              b.containsR w.area = true) ∧ fragFromPoint w.area s = true))) ∧
    (∀ w ∈ words,
        (∀ b ∈ blocks, b.containsR w.area = true →
          b.readingOrder = eb.readingOrder) →
        (w ∈ resolveSelection words blocks s e ↔
          ((∃ b ∈ blocks, b.readingOrder = eb.readingOrder ∧
              b.containsR w.area = true) ∧ fragUpToPoint w.area e = true))) ∧
    resolveSelection wordsSix blocksSix sixStart sixEnd =
      [entLeftBot, entRightTop, entRightBot, entFooter] := by
  have h1 : ¬(sb.readingOrder = -1 ∨ eb.readingOrder = -1) := by omega
  have h2 : ¬(sb.readingOrder = eb.readingOrder) := by omega
  have hres : resolveSelection words blocks s e =
      words.filter (fun w =>
        crossInclude blocks sb.readingOrder eb.readingOrder s e w.area) := by
    unfold resolveSelection
    rw [hs, he]
    show (if sb.readingOrder = -1 ∨ eb.readingOrder = -1 then
            geometricSelect words s e
          else if sb.readingOrder = eb.readingOrder then
            geometricSelect words s e
          else if sb.readingOrder < eb.readingOrder then
            words.filter fun w =>
              crossInclude blocks sb.readingOrder eb.readingOrder s e w.area
          else
            words.filter fun w =>
              crossInclude blocks eb.readingOrder sb.readingOrder e s w.area) =
        words.filter fun w =>
          crossInclude blocks sb.readingOrder eb.readingOrder s e w.area
    rw [if_neg h1, if_neg h2, if_pos hlt]
  refine ⟨?_, ?_, ?_, ?_, ?_⟩
  · intro w hw hbetween
    rw [hres]
    exact List.mem_filter.mpr
      ⟨hw, (crossInclude_iff _ _ _ _ _ _).mpr (Or.inl hbetween)⟩
  · intro w hw
    rw [hres] at hw
    have hc := (crossInclude_iff _ _ _ _ _ _).mp (List.mem_filter.mp hw).2
    rcases hc with ⟨b, hb, hlo, hhi, hcr⟩ | ⟨⟨b, hb, ho, hcr⟩, _⟩ |
      ⟨⟨b, hb, ho, hcr⟩, _⟩
    · exact ⟨b, hb, le_of_lt hlo, le_of_lt hhi, hcr⟩
    · exact ⟨b, hb, by omega, by omega, hcr⟩
    · exact ⟨b, hb, by omega, by omega, hcr⟩
  · intro w hw honly
    rw [hres]
    constructor
    · intro hmem
      have hc := (crossInclude_iff _ _ _ _ _ _).mp (List.mem_filter.mp hmem).2
      rcases hc with ⟨b, hb, hlo, hhi, hcr⟩ | hmin | ⟨⟨b, hb, ho, hcr⟩, _⟩
      · exfalso
        have := honly b hb hcr
        omega
      · exact hmin
      · exfalso
        have := honly b hb hcr
        omega
    · rintro ⟨hex, hfrag⟩
      exact List.mem_filter.mpr
        ⟨hw, (crossInclude_iff _ _ _ _ _ _).mpr (Or.inr (Or.inl ⟨hex, hfrag⟩))⟩
  · intro w hw honly
    rw [hres]
    constructor
    · intro hmem
      have hc := (crossInclude_iff _ _ _ _ _ _).mp (List.mem_filter.mp hmem).2
      rcases hc with ⟨b, hb, hlo, hhi, hcr⟩ | ⟨⟨b, hb, ho, hcr⟩, _⟩ | hmax
      · exfalso
        have := honly b hb hcr
        omega
      · exfalso
        have := honly b hb hcr
        omega
      · exact hmax
    · rintro ⟨hex, hfrag⟩
      exact List.mem_filter.mpr
        ⟨hw, (crossInclude_iff _ _ _ _ _ _).mpr (Or.inr (Or.inr ⟨hex, hfrag⟩))⟩
  · with_unfolding_all decide

/-- Witness for C1 at the six-block layout: the order-3 block's fragment
is selected by the order-2 → order-5 selection. -/
theorem crossBlock_completeness_witness :
    entRightTop ∈ resolveSelection wordsSix blocksSix sixStart sixEnd :=
  (crossBlock_completeness wordsSix blocksSix sixStart sixEnd blkLeftBot
    blkFooter (by with_unfolding_all decide) (by with_unfolding_all decide)
    (by with_unfolding_all decide) (by with_unfolding_all decide)
    (by with_unfolding_all decide)).1 entRightTop
    (by with_unfolding_all decide)
    ⟨blkRightTop, by with_unfolding_all decide, by with_unfolding_all decide,
      by with_unfolding_all decide, by with_unfolding_all decide⟩

/-- C4: line precision — fragments whose vertical centers differ by at
most the fixed tolerance 0.01 count as the same line and are ordered by
left edge; strictly larger differences are ordered top-to-bottom; and in
the two-column scenario the cross-block selection starting at y = 0.124
(inside the second fragment) and ending inside the third fragment selects
exactly the second and third fragments — the tightly spaced line above is
excluded — with assembled text "L2R1". -/
theorem line_precision :
    (∀ a b : TextEntity,
        |a.area.centerY - b.area.centerY| ≤ lineTol →
        entLt a b = decide (a.area.left < b.area.left)) ∧
    (∀ a b : TextEntity,
        lineTol < |a.area.centerY - b.area.centerY| →
        entLt a b = decide (a.area.centerY < b.area.centerY)) ∧
    resolveSelection wordsLP blocksLP lpStart lpEnd = [entL2, entR1] ∧
    extractTextInReadingOrder wordsLP blocksLP [entL2.area, entR1.area]
      false = "L2R1" := by
  refine ⟨?_, ?_, ?_, ?_⟩
  · intro a b h
    unfold entLt
    rw [if_neg (not_lt.mpr h)]
  · intro a b h
    unfold entLt
    rw [if_pos h]
  · with_unfolding_all decide
  · with_unfolding_all decide

/-- Witness for C4 at two concrete same-line fragments. -/
theorem line_precision_witness :
    entLt entL2 entL2b = decide (entL2.area.left < entL2b.area.left) :=
  line_precision.1 entL2 entL2b (by with_unfolding_all decide)

/-- Joining a concatenation of string lists concatenates the joins. -/
lemma string_join_append (l1 l2 : List String) :
    String.join (l1 ++ l2) = String.join l1 ++ String.join l2 := by
  apply String.ext
  simp

/-- The inserted key is a member of the insertion result. -/
lemma insertKey_mem_self (k : Int) : ∀ l : List Int, k ∈ insertKey k l := by
  intro l
  induction l with
  | nil => simp [insertKey]
  | cons x xs ih =>
      by_cases h1 : k < x
      · simp [insertKey, h1]
      · by_cases h2 : k = x
        · simp [insertKey, h1, h2]
        · simp only [insertKey, if_neg h1, if_neg h2]
          exact List.mem_cons_of_mem x ih

/-- Members of an insertion are the key or old members. -/
lemma insertKey_mem (k : Int) :
    ∀ l : List Int, ∀ x ∈ insertKey k l, x = k ∨ x ∈ l := by
  intro l
  induction l with
  | nil =>
      intro x hx
      simp only [insertKey, List.mem_singleton] at hx
      exact Or.inl hx
  | cons y ys ih =>
      intro x hx
      by_cases h1 : k < y
      · simp only [insertKey, if_pos h1] at hx
        rcases List.mem_cons.mp hx with h | h
        · exact Or.inl h
        · exact Or.inr h
      · by_cases h2 : k = y
        · simp only [insertKey, if_neg h1, if_pos h2] at hx
          exact Or.inr hx
        · simp only [insertKey, if_neg h1, if_neg h2] at hx
          rcases List.mem_cons.mp hx with h | h
          · exact Or.inr (by rw [h]; exact List.mem_cons_self y ys)
          · rcases ih x h with h3 | h3
            · exact Or.inl h3
            · exact Or.inr (List.mem_cons_of_mem y h3)

/-- Old members survive an insertion. -/
lemma insertKey_mem_of_mem (k : Int) :
    ∀ l : List Int, ∀ x ∈ l, x ∈ insertKey k l := by
  intro l
  induction l with
  | nil =>
      intro x hx
      exact absurd hx (List.not_mem_nil x)
  | cons y ys ih =>
      intro x hx
      by_cases h1 : k < y
      · simp only [insertKey, if_pos h1]
        exact List.mem_cons_of_mem k hx
      · by_cases h2 : k = y
        · simp only [insertKey, if_neg h1, if_pos h2]
          exact hx
        · simp only [insertKey, if_neg h1, if_neg h2]
          rcases List.mem_cons.mp hx with h | h
          · rw [h]
            exact List.mem_cons_self y _
          · exact List.mem_cons_of_mem y (ih x h)

/-- Insertion preserves strict ascending sortedness. -/
lemma insertKey_pairwise (k : Int) :
    ∀ l : List Int, l.Pairwise (· < ·) →
      (insertKey k l).Pairwise (· < ·) := by
  intro l
  induction l with
  | nil =>
      intro h
      simp [insertKey]
  | cons x xs ih =>
      intro h
      have hx := (List.pairwise_cons.mp h).1
      have hxs := (List.pairwise_cons.mp h).2
      by_cases h1 : k < x
      · simp only [insertKey, if_pos h1]
        refine List.pairwise_cons.mpr ⟨?_, h⟩
        intro y hy
        rcases List.mem_cons.mp hy with rfl | hmem
        · exact h1
        · exact lt_trans h1 (hx y hmem)
      · by_cases h2 : k = x
        · simp only [insertKey, if_neg h1, if_pos h2]
          exact h
        · simp only [insertKey, if_neg h1, if_neg h2]
          refine List.pairwise_cons.mpr ⟨?_, ih hxs⟩
          intro y hy
          rcases insertKey_mem k xs y hy with rfl | hmem
          · omega
          · exact hx y hmem

/-- The key lists produced by the assembler are strictly ascending. -/
lemma sortedKeys_pairwise :
    ∀ ks : List Int, (sortedKeys ks).Pairwise (· < ·) := by
  intro ks
  induction ks with
  | nil => simp [sortedKeys]
  | cons x xs ih => exact insertKey_pairwise x (sortedKeys xs) ih

/-- Every original key occurs in the sorted key list. -/
lemma sortedKeys_mem_self :
    ∀ ks : List Int, ∀ k ∈ ks, k ∈ sortedKeys ks := by
  intro ks
  induction ks with
  | nil =>
      intro k hk
      exact absurd hk (List.not_mem_nil k)
  | cons x xs ih =>
      intro k hk
      rcases List.mem_cons.mp hk with rfl | hmem
      · exact insertKey_mem_self k (sortedKeys xs)
      · exact insertKey_mem_of_mem x (sortedKeys xs) k (ih k hmem)

/-- Sorted keys come from the original key list. -/
lemma sortedKeys_mem :
    ∀ ks : List Int, ∀ x ∈ sortedKeys ks, x ∈ ks := by
  intro ks
  induction ks with
  | nil =>
      intro x hx
      exact absurd hx (List.not_mem_nil x)
  | cons y ys ih =>
      intro x hx
      rcases insertKey_mem y (sortedKeys ys) x hx with heq | hmem
      · rw [heq]
        exact List.mem_cons_self y ys
      · exact List.mem_cons_of_mem y (ih x hmem)

/-- A strictly ascending list splits into its below-threshold prefix
followed by the rest. -/
lemma sorted_filter_split (c : Int) :
    ∀ l : List Int, l.Pairwise (· < ·) →
      l = l.filter (fun k => decide (k < c)) ++
          l.filter (fun k => !decide (k < c)) := by
  intro l
  induction l with
  | nil => intro h; rfl
  | cons x xs ih =>
      intro h
      have hhd := (List.pairwise_cons.mp h).1
      have htl := (List.pairwise_cons.mp h).2
      by_cases hx : x < c
      · rw [List.filter_cons_of_pos (by simp [hx]),
          List.filter_cons_of_neg (by simp [hx]), List.cons_append]
        exact congrArg (List.cons x) (ih htl)
      · rw [List.filter_cons_of_neg (by simp [hx]),
          List.filter_cons_of_pos (by simp [hx])]
        have hfp : xs.filter (fun k => decide (k < c)) = [] := by
          apply List.filter_eq_nil_iff.mpr
          intro y hy
          have hxy := hhd y hy
          simp only [decide_eq_true_eq]
          omega
        have hfq : xs.filter (fun k => !decide (k < c)) = xs := by
          apply List.filter_eq_self.mpr
          intro y hy
          have hxy := hhd y hy
          simp only [Bool.not_eq_true', decide_eq_false_iff_not]
          omega
        rw [hfp, hfq, List.nil_append]

/-- Splitting the joined groups at the sentinel key: for a strictly
ascending key list bounded by the sentinel, the join is the join of the
proper keys followed by the sentinel group. -/
lemma join_split_sentinel (g : Int → String) (K : List Int)
    (hpw : K.Pairwise (· < ·)) (hbound : ∀ k ∈ K, k ≤ 999999)
    (hg : (999999 : Int) ∉ K → g 999999 = "") :
    String.join (K.map g) =
      String.join ((K.filter (fun k => decide (k < 999999))).map g) ++
        g 999999 := by
  have hsplit := sorted_filter_split 999999 K hpw
  conv_lhs => rw [hsplit]
  rw [List.map_append, string_join_append]
  congr 1
  by_cases hs : (999999 : Int) ∈ K
  · have hBq : K.filter (fun k => !decide (k < 999999)) = [999999] := by
      have hqmem : (999999 : Int) ∈
          K.filter (fun k => !decide (k < 999999)) :=
        List.mem_filter.mpr ⟨hs, by simp⟩
      have hpf : (K.filter (fun k => !decide (k < 999999))).Pairwise
          (· < ·) := hpw.filter _
      have hall : ∀ k ∈ K.filter (fun k => !decide (k < 999999)),
          k = 999999 := by
        intro k hk
        have h1 := hbound k (List.mem_filter.mp hk).1
        have h2 := (List.mem_filter.mp hk).2
        simp only [Bool.not_eq_true', decide_eq_false_iff_not, not_lt] at h2
        omega
      rcases hF : K.filter (fun k => !decide (k < 999999)) with _ | ⟨a, t⟩
      · rw [hF] at hqmem
        exact absurd hqmem (List.not_mem_nil _)
      · rw [hF] at hall hpf
        have ha : a = 999999 := hall a (List.mem_cons_self a t)
        cases t with
        | nil => rw [ha]
        | cons b t2 =>
            exfalso
            have hb2 : b = 999999 :=
              hall b (List.mem_cons_of_mem a (List.mem_cons_self b t2))
            have hab : a < b :=
              (List.pairwise_cons.mp hpf).1 b (List.mem_cons_self b t2)
            omega
    rw [hBq]
    apply String.ext
    simp
  · have hBq : K.filter (fun k => !decide (k < 999999)) = [] := by
      apply List.filter_eq_nil_iff.mpr
      intro k hk
      have h1 := hbound k hk
      have h2 : k ≠ 999999 := fun he => hs (he ▸ hk)
      simp only [Bool.not_eq_true', decide_eq_false_iff_not, not_not]
      omega
    rw [hBq, hg hs]
    rfl

/-- The group key is bounded by the sentinel whenever every block's
reading order is. -/
lemma groupKey_le (blocks : List LayoutBlock)
    (hb : ∀ b ∈ blocks, b.readingOrder < 999999) (a : NRect) :
    groupKey blocks a ≤ 999999 := by
  unfold groupKey
  cases hf : blocks.find? (fun b => b.containsR a) with
  | none => exact le_refl 999999
  | some b =>
      have hmem := List.mem_of_find?_eq_some hf
      have hlt := hb b hmem
      show (if 0 ≤ b.readingOrder then b.readingOrder else 999999) ≤ 999999
      by_cases h0 : 0 ≤ b.readingOrder
      · rw [if_pos h0]
        omega
      · rw [if_neg h0]

/-- C6 counterexample: with a block of reading order 1000000 the sentinel
999999 sorts before the real group, so the text "B" of the fragment
outside every block precedes the block-grouped text "A". -/
theorem sentinel_cex :
    extractTextInReadingOrder [entInBig, entOutside] [blkBig] areaFull
      false = "BA" ∧
    ([blkBig].find? (fun b => b.containsR entOutside.area)).isSome = false ∧
    ([blkBig].find? (fun b => b.containsR entInBig.area)).isSome = true ∧
    groupKey [blkBig] entOutside.area = 999999 ∧
    groupKey [blkBig] entInBig.area = 1000000 ∧
    blkBig.readingOrder = 1000000 ∧
    entOutside.text = "B" ∧ entInBig.text = "A" := by
  with_unfolding_all decide

/-- C6 amended: sentinel-last grouping — a matched fragment's group key is
the reading order of the first block (registry order) centrally
containing it when that order is non-negative, and the sentinel 999999
when no block contains it; provided every block's reading order is below
999999, the assembled output is the ascending concatenation of the real
(below-sentinel) groups followed by the sentinel group, so text of
fragments outside every block comes last. -/
theorem sentinel_last (blocks : List LayoutBlock)
    (hb : ∀ b ∈ blocks, b.readingOrder < 999999) :
    (∀ (a : NRect) (b : LayoutBlock),
        blocks.find? (fun x => x.containsR a) = some b →
        0 ≤ b.readingOrder → groupKey blocks a = b.readingOrder) ∧
    (∀ a : NRect, blocks.find? (fun x => x.containsR a) = none →
        groupKey blocks a = 999999) ∧
    (∀ (words : List TextEntity) (area : List NRect) (u : Bool),
        extractTextInReadingOrder words blocks area u =
          String.join
            (((sortedKeys ((words.filter (matchesArea area u)).map
                (fun w => groupKey blocks w.area))).filter
                (fun k => decide (k < 999999))).map
              (groupText blocks (words.filter (matchesArea area u)))) ++
          groupText blocks (words.filter (matchesArea area u)) 999999) := by
  refine ⟨?_, ?_, ?_⟩
  · intro a b hf h0
    unfold groupKey
    rw [hf]
    show (if 0 ≤ b.readingOrder then b.readingOrder else 999999) =
      b.readingOrder
    rw [if_pos h0]
  · intro a hf
    unfold groupKey
    rw [hf]
  · intro words area u
    have hE : extractTextInReadingOrder words blocks area u =
        String.join ((sortedKeys ((words.filter (matchesArea area u)).map
          (fun w => groupKey blocks w.area))).map
          (groupText blocks (words.filter (matchesArea area u)))) := rfl
    rw [hE]
    apply join_split_sentinel
    · exact sortedKeys_pairwise _
    · intro k hk
      rcases List.mem_map.mp (sortedKeys_mem _ k hk) with ⟨w, hw, heq⟩
      exact heq ▸ groupKey_le blocks hb w.area
    · intro hs
      unfold groupText
      have hzero : (words.filter (matchesArea area u)).filter
          (fun w => groupKey blocks w.area == 999999) = [] := by
        apply List.filter_eq_nil_iff.mpr
        intro w hw hkey
        apply hs
        have hk1 : groupKey blocks w.area = 999999 := by simpa using hkey
        exact hk1 ▸ sortedKeys_mem_self _ _ (List.mem_map_of_mem _ hw)
      rw [hzero]
      rfl

/-- Witness for C6 (amended): the two-column registry with a fragment in
the left block and a fragment in the gutter. -/
theorem sentinel_last_witness :
    extractTextInReadingOrder [entL1, entGap] blocksLP areaFull false =
      String.join
        (((sortedKeys (([entL1, entGap].filter
            (matchesArea areaFull false)).map
            (fun w => groupKey blocksLP w.area))).filter
            (fun k => decide (k < 999999))).map
          (groupText blocksLP ([entL1, entGap].filter
            (matchesArea areaFull false)))) ++
      groupText blocksLP ([entL1, entGap].filter (matchesArea areaFull
        false)) 999999 :=
  (sentinel_last blocksLP (by with_unfolding_all decide)).2.2
    [entL1, entGap] areaFull false

/-- The assembler comparator is asymmetric. -/
lemma entLt_asymm (a b : TextEntity) (h : entLt a b = true) :
    entLt b a = false := by
  unfold entLt at h ⊢
  rw [abs_sub_comm b.area.centerY a.area.centerY]
  by_cases hd : |a.area.centerY - b.area.centerY| > lineTol
  · rw [if_pos hd] at h ⊢
    simp only [decide_eq_true_eq] at h
    simp only [decide_eq_false_iff_not, not_lt]
    exact le_of_lt h
  · rw [if_neg hd] at h ⊢
    simp only [decide_eq_true_eq] at h
    simp only [decide_eq_false_iff_not, not_lt]
    exact le_of_lt h

/-- An insertion result starts with the new element or with the old
head. -/
lemma insertSortedEnt_shape (w : TextEntity) :
    ∀ l : List TextEntity,
      insertSortedEnt w l = w :: l ∨
      ∃ x xs, l = x :: xs ∧
        insertSortedEnt w l = x :: insertSortedEnt w xs := by
  intro l
  cases l with
  | nil => exact Or.inl rfl
  | cons x xs =>
      by_cases h : entLt w x = true
      · left
        simp only [insertSortedEnt, if_pos h]
      · right
        refine ⟨x, xs, rfl, ?_⟩
        simp only [insertSortedEnt, if_neg h]

/-- Insertion preserves the adjacent no-inversion invariant of the
per-group sort. -/
lemma insertSortedEnt_chain (w : TextEntity) :
    ∀ l : List TextEntity,
      List.Chain' (fun a b => entLt b a = false) l →
      List.Chain' (fun a b => entLt b a = false) (insertSortedEnt w l) := by
  intro l
  induction l with
  | nil =>
      intro hch
      simp [insertSortedEnt]
  | cons x xs ih =>
      intro hch
      by_cases h : entLt w x = true
      · rw [insertSortedEnt, if_pos h]
        exact List.chain'_cons.mpr ⟨entLt_asymm w x h, hch⟩
      · rw [insertSortedEnt, if_neg h]
        have hwx : entLt w x = false := by
          cases hwx2 : entLt w x with
          | true => exact absurd hwx2 h
          | false => rfl
        have htail : List.Chain' (fun a b => entLt b a = false)
            (insertSortedEnt w xs) := ih hch.tail
        rcases insertSortedEnt_shape w xs with hsh | ⟨y, ys, hxs, hsh⟩
        · rw [hsh] at htail ⊢
          exact List.chain'_cons.mpr ⟨hwx, htail⟩
        · subst hxs
          rw [hsh] at htail ⊢
          exact List.chain'_cons.mpr ⟨(List.chain'_cons.mp hch).1, htail⟩

/-- Each sorted group satisfies the adjacent no-inversion invariant. -/
lemma sortEnts_chain (l : List TextEntity) :
    List.Chain' (fun a b => entLt b a = false) (sortEnts l) := by
  induction l with
  | nil => simp [sortEnts]
  | cons x xs ih => exact insertSortedEnt_chain x (sortEnts xs) ih

/-- C9: assembler determinism — extraction is a function of exactly its
four inputs, so any two runs on the same fragment list, block list,
selection area and inclusion mode yield byte-identical strings; moreover
in every sorted group adjacent fragments are never inverted under the
comparator, so within-tolerance neighbours sit in ascending left order
and farther ones in ascending vertical order. -/
theorem assembler_det :
    (∀ (words : List TextEntity) (blocks : List LayoutBlock)
        (area : List NRect) (u : Bool) (s1 s2 : String),
        s1 = extractTextInReadingOrder words blocks area u →
        s2 = extractTextInReadingOrder words blocks area u →
        s1 = s2) ∧
    (∀ l : List TextEntity,
        List.Chain' (fun a b => entLt b a = false) (sortEnts l)) := by
  constructor
  · intro words blocks area u s1 s2 h1 h2
    rw [h1, h2]
  · exact sortEnts_chain

/-- Witness for C9 at the line-precision inputs. -/
theorem assembler_det_witness :
    extractTextInReadingOrder wordsLP blocksLP [entL2.area] false =
      extractTextInReadingOrder wordsLP blocksLP [entL2.area] false :=
  assembler_det.1 wordsLP blocksLP [entL2.area] false _ _ rfl rfl

end BlockSel
